import Mathlib

/-!
Verification of the numerical core of an opinion-dynamics research library.

The source (`util.py`) provides weighted random sampling (`rchoice`),
row-stochastic normalization (`rowStochastic`), random spanning-tree and
connected-G(N,p) graph generation (`randomSpanningTree`, `gnp`), mean-degree
computation (`meanDegree`) and the closed-form Friedkin-Johnsen equilibrium
(`expectedEquilibrium`).

We embed those functions shallowly over `ℚ`: random draws become explicit
inputs (the permutation drawn by `rand.permutation` becomes an
`Equiv.Perm (Fin N)`, the stream of `rand.random()` draws becomes an explicit
function argument), matrices are `Matrix (Fin N) (Fin N) ℚ`, and the fallible
sampler returns an `Option`.
-/

/-- Embedding of `rchoice`'s loop: walk the (already filtered) list of
nonzero-weight indices, accumulating `s += weights[i]`, returning the first
index with `r <= s`; `none` models the `RuntimeError` raised when the loop
falls through. -/
def rchoiceAux {K : ℕ} (weights : Fin K → ℚ) (r : ℚ) : ℚ → List (Fin K) → Option (Fin K)
  | _, [] => none
  | s, i :: rest =>
    let s2 := s + weights i
    if r ≤ s2 then some i else rchoiceAux weights r s2 rest

/-- `np.nonzero(weights)[0]`: the indices with nonzero weight, in ascending
order. -/
def nonzeroIdx {K : ℕ} (weights : Fin K → ℚ) : List (Fin K) :=
  (List.finRange K).filter fun i => decide (weights i ≠ 0)

/-- Embedding of `rchoice(weights)`: the uniform draw `r = rand.random()` is
passed explicitly.  `positive_probs = np.nonzero(weights)[0]`, `s = 0.0`, then
the accumulation loop. -/
def rchoice {K : ℕ} (weights : Fin K → ℚ) (r : ℚ) : Option (Fin K) :=
  rchoiceAux weights r 0 (nonzeroIdx weights)

/-- Embedding of `rowStochastic(A)`: `A / A.sum(axis=1, keepdims=True)`,
entrywise division of each row by its sum. -/
def rowStochastic {N : ℕ} (A : Matrix (Fin N) (Fin N) ℚ) : Matrix (Fin N) (Fin N) ℚ :=
  Matrix.of fun i j => A i j / ∑ k, A i k

lemma rowStochastic_apply {N : ℕ} (A : Matrix (Fin N) (Fin N) ℚ) (i j : Fin N) :
    rowStochastic A i j = A i j / ∑ k, A i k := rfl

lemma rowSum_rowStochastic {N : ℕ} (A : Matrix (Fin N) (Fin N) ℚ) (i : Fin N)
    (h : ∑ k, A i k ≠ 0) : ∑ j, rowStochastic A i j = 1 := by
  simp only [rowStochastic_apply]
  rw [← Finset.sum_div]
  exact div_self h

/-- C5: every entry of `rowStochastic A` is the source entry divided by its
row sum, and (given no zero row sum) every row of the result sums to 1. -/
theorem rowStochastic_spec {N : ℕ} (A : Matrix (Fin N) (Fin N) ℚ)
    (h : ∀ i, ∑ k, A i k ≠ 0) :
    (∀ i j, rowStochastic A i j = A i j / ∑ k, A i k) ∧
      (∀ i, ∑ j, rowStochastic A i j = 1) :=
  ⟨fun _ _ => rfl, fun i => rowSum_rowStochastic A i (h i)⟩

/-- Witness for C5 at the concrete matrix `[[1,2],[3,4]]`. -/
theorem rowStochastic_spec_witness :
    (∀ i, ∑ k, Matrix.of ![![(1 : ℚ), 2], ![3, 4]] i k ≠ 0) ∧
      (∀ i, ∑ j, rowStochastic (Matrix.of ![![(1 : ℚ), 2], ![3, 4]]) i j = 1) := by
  have h : ∀ i, ∑ k, Matrix.of ![![(1 : ℚ), 2], ![3, 4]] i k ≠ 0 := by
    norm_num [Fin.forall_fin_two, Fin.sum_univ_two]
  exact ⟨h, (rowStochastic_spec _ h).2⟩

/-- C8: `rowStochastic` is idempotent on matrices with no zero row sum. -/
theorem rowStochastic_idem {N : ℕ} (A : Matrix (Fin N) (Fin N) ℚ)
    (h : ∀ i, ∑ k, A i k ≠ 0) :
    rowStochastic (rowStochastic A) = rowStochastic A := by
  ext i j
  rw [rowStochastic_apply (rowStochastic A), rowSum_rowStochastic A i (h i), div_one]

/-- Witness for C8 at the concrete matrix `[[1,2],[3,4]]`. -/
theorem rowStochastic_idem_witness :
    (∀ i, ∑ k, Matrix.of ![![(1 : ℚ), 2], ![3, 4]] i k ≠ 0) ∧
      rowStochastic (rowStochastic (Matrix.of ![![(1 : ℚ), 2], ![3, 4]])) =
        rowStochastic (Matrix.of ![![(1 : ℚ), 2], ![3, 4]]) := by
  have h : ∀ i, ∑ k, Matrix.of ![![(1 : ℚ), 2], ![3, 4]] i k ≠ 0 := by
    norm_num [Fin.forall_fin_two, Fin.sum_univ_two]
  exact ⟨h, rowStochastic_idem _ h⟩

/-- C10: on a nonnegative matrix with positive row sums, row-stochastic
normalization preserves the zero/nonzero (and hence adjacency) pattern. -/
theorem rowStochastic_pattern {N : ℕ} (A : Matrix (Fin N) (Fin N) ℚ)
    (hnn : ∀ i j, 0 ≤ A i j) (hpos : ∀ i, 0 < ∑ k, A i k) :
    (∀ i j, 0 < rowStochastic A i j ↔ 0 < A i j) ∧
      (∀ i j, rowStochastic A i j = 0 ↔ A i j = 0) := by
  constructor
  · intro i j
    rw [rowStochastic_apply]
    constructor
    · intro hlt
      rcases div_pos_iff.mp hlt with ⟨h1, _⟩ | ⟨_, h2⟩
      · exact h1
      · exact absurd (hpos i) (not_lt.mpr h2.le)
    · intro hlt
      exact div_pos hlt (hpos i)
  · intro i j
    rw [rowStochastic_apply, div_eq_zero_iff]
    constructor
    · rintro (h | h)
      · exact h
      · exact absurd h (hpos i).ne'
    · exact Or.inl

/-- Witness for C10 at the concrete matrix `[[0,2],[3,4]]`. -/
theorem rowStochastic_pattern_witness :
    ((∀ i j, (0 : ℚ) ≤ Matrix.of ![![(0 : ℚ), 2], ![3, 4]] i j) ∧
        (∀ i, 0 < ∑ k, Matrix.of ![![(0 : ℚ), 2], ![3, 4]] i k)) ∧
      (∀ i j, rowStochastic (Matrix.of ![![(0 : ℚ), 2], ![3, 4]]) i j = 0 ↔
        Matrix.of ![![(0 : ℚ), 2], ![3, 4]] i j = 0) := by
  have h1 : ∀ i j, (0 : ℚ) ≤ Matrix.of ![![(0 : ℚ), 2], ![3, 4]] i j := by
    norm_num [Fin.forall_fin_two]
  have h2 : ∀ i, 0 < ∑ k, Matrix.of ![![(0 : ℚ), 2], ![3, 4]] i k := by
    norm_num [Fin.forall_fin_two, Fin.sum_univ_two]
  exact ⟨⟨h1, h2⟩, (rowStochastic_pattern _ h1 h2).2⟩

lemma rchoiceAux_mem {K : ℕ} (weights : Fin K → ℚ) (r : ℚ) (i : Fin K) :
    ∀ (l : List (Fin K)) (s : ℚ), rchoiceAux weights r s l = some i → i ∈ l := by
  intro l
  induction l with
  | nil => intro s h; simp [rchoiceAux] at h
  | cons a rest ih =>
    intro s h
    rw [rchoiceAux] at h
    by_cases hc : r ≤ s + weights a
    · simp only [hc, if_pos] at h
      simp [Option.some_inj.mp h]
    · simp only [hc, if_neg, not_false_iff] at h
      exact List.mem_cons_of_mem a (ih _ h)

lemma mem_nonzeroIdx {K : ℕ} (weights : Fin K → ℚ) (i : Fin K)
    (h : i ∈ nonzeroIdx weights) : weights i ≠ 0 := by
  have := List.of_mem_filter h
  simpa using this

/-- C7: whenever `rchoice` returns an index, the weight at that index is
nonzero — a zero-weight index is never returned. -/
theorem rchoice_nonzero {K : ℕ} (weights : Fin K → ℚ) (r : ℚ) (i : Fin K)
    (h : rchoice weights r = some i) : weights i ≠ 0 :=
  mem_nonzeroIdx weights i (rchoiceAux_mem weights r i _ _ h)

/-- Witness for C7: on weights `[0, 1/2, 1/2]` with draw `2/5` the sampler
returns index 1, whose weight is nonzero. -/
theorem rchoice_nonzero_witness :
    rchoice ![(0 : ℚ), 1/2, 1/2] (2/5) = some 1 ∧ ![(0 : ℚ), 1/2, 1/2] 1 ≠ 0 := by
  have h : rchoice ![(0 : ℚ), 1/2, 1/2] (2/5) = some 1 := by
    norm_num [rchoice, nonzeroIdx, rchoiceAux, List.finRange, List.filter]
  exact ⟨h, rchoice_nonzero _ _ _ h⟩

lemma rchoiceAux_none_iff {K : ℕ} (weights : Fin K → ℚ) (r : ℚ) :
    ∀ (l : List (Fin K)) (s : ℚ),
      rchoiceAux weights r s l = none ↔
        ∀ m, m < l.length → s + (((l.take (m + 1)).map weights).sum) < r := by
  intro l
  induction l with
  | nil => intro s; simp [rchoiceAux]
  | cons a rest ih =>
    intro s
    rw [rchoiceAux]
    by_cases hc : r ≤ s + weights a
    · simp only [hc, if_pos]
      constructor
      · intro h; exact absurd h (by simp)
      · intro h
        have h0 := h 0 (by simp)
        simp only [List.take, List.map, List.sum_cons, List.sum_nil, add_zero] at h0
        exact absurd hc (not_le.mpr h0)
    · simp only [hc, if_neg, not_false_iff]
      rw [ih (s + weights a)]
      constructor
      · intro h m hm
        match m with
        | 0 =>
          simp only [List.take, List.map, List.sum_cons, List.sum_nil, add_zero]
          exact not_le.mp hc
        | Nat.succ m' =>
          have := h m' (by simpa using hm)
          simp only [List.take, List.map, List.sum_cons]
          linarith
      · intro h m hm
        have := h (m + 1) (by simpa using hm)
        simp only [List.take, List.map, List.sum_cons] at this
        linarith

lemma nonzeroIdx_eq_nil {K : ℕ} (weights : Fin K → ℚ) (h : ∀ i, weights i = 0) :
    nonzeroIdx weights = [] := by
  apply List.filter_eq_nil.mpr
  intro a _
  simp [h a]

/-- C6: the sampler fails (returns `none`, modelling the raised error) exactly
when every running cumulative sum over the nonzero-weight indices stays below
the draw `r`; an all-zero weight vector always fails; and a returned index is
always within `[0, K)`. -/
theorem rchoice_fail_spec {K : ℕ} (weights : Fin K → ℚ) (r : ℚ) :
    ((∀ i, weights i = 0) → rchoice weights r = none) ∧
      (rchoice weights r = none ↔
        ∀ m, m < (nonzeroIdx weights).length →
          (((nonzeroIdx weights).take (m + 1)).map weights).sum < r) ∧
      (∀ i : Fin K, rchoice weights r = some i → (i : ℕ) < K) := by
  refine ⟨?_, ?_, ?_⟩
  · intro h
    rw [rchoice, nonzeroIdx_eq_nil weights h]
    rfl
  · rw [rchoice, rchoiceAux_none_iff]
    constructor
    · intro h m hm; have := h m hm; linarith
    · intro h m hm; have := h m hm; linarith
  · intro i _
    exact i.isLt

/-- Witness for C6: the all-zero vector `[0, 0]` fails for the draw `1/2`,
and on `[0, 1/2, 1/2]` with draw `2/5` the returned index is in range. -/
theorem rchoice_fail_spec_witness :
    rchoice ![(0 : ℚ), 0] (1/2) = none ∧
      ((1 : Fin 3) : ℕ) < 3 := by
  constructor
  · exact (rchoice_fail_spec ![(0 : ℚ), 0] (1/2)).1 (by norm_num [Fin.forall_fin_two])
  · exact (rchoice_fail_spec ![(0 : ℚ), 1/2, 1/2] (2/5)).2.2 1 (by
      norm_num [rchoice, nonzeroIdx, rchoiceAux, List.finRange, List.filter])

/-- Computable matrix inverse over `ℚ`: `det⁻¹ • adjugate`.  Agrees with
Mathlib's noncomputable `M⁻¹` (see `matInv_eq_inv`); embeds `numpy.linalg.inv`
on the rational fragment. -/
def matInv {n : ℕ} (M : Matrix (Fin n) (Fin n) ℚ) : Matrix (Fin n) (Fin n) ℚ :=
  (M.det)⁻¹ • M.adjugate

lemma matInv_eq_inv {n : ℕ} (M : Matrix (Fin n) (Fin n) ℚ) : matInv M = M⁻¹ := by
  rw [Matrix.inv_def, matInv, Ring.inverse_eq_inv]

/-- Embedding of `expectedEquilibrium(A, s)`:
`B = np.diag(np.diag(A))`, result `inv(I - (A - B)) @ B @ s`. -/
def expectedEquilibrium {n : ℕ} (A : Matrix (Fin n) (Fin n) ℚ) (s : Fin n → ℚ) :
    Fin n → ℚ :=
  let B := Matrix.diagonal fun i => A i i
  (matInv (1 - (A - B)) * B).mulVec s

/-- C1: the solver returns exactly `(I - (A - B))⁻¹ · B · s` where `B` is the
diagonal of `A`, and whenever `I - (A - B)` is invertible the returned vector
satisfies the Friedkin-Johnsen fixed-point equation
`x = B·s + (A - B)·x`. -/
theorem expectedEquilibrium_spec {n : ℕ} (A : Matrix (Fin n) (Fin n) ℚ)
    (s : Fin n → ℚ)
    (hinv : IsUnit (1 - (A - Matrix.diagonal fun i => A i i)).det) :
    expectedEquilibrium A s =
      ((1 - (A - Matrix.diagonal fun i => A i i))⁻¹ *
        Matrix.diagonal fun i => A i i).mulVec s ∧
      expectedEquilibrium A s =
        (Matrix.diagonal fun i => A i i).mulVec s +
          (A - Matrix.diagonal fun i => A i i).mulVec (expectedEquilibrium A s) := by
  set B : Matrix (Fin n) (Fin n) ℚ := Matrix.diagonal fun i => A i i with hB
  set M : Matrix (Fin n) (Fin n) ℚ := 1 - (A - B) with hM
  have hdef : expectedEquilibrium A s = (M⁻¹ * B).mulVec s := by
    rw [expectedEquilibrium, matInv_eq_inv]
  refine ⟨hdef, ?_⟩
  have hAB : A - B = 1 - M := (sub_sub_cancel 1 (A - B)).symm
  have hMx : M.mulVec (expectedEquilibrium A s) = B.mulVec s := by
    rw [hdef, Matrix.mulVec_mulVec, ← Matrix.mul_assoc,
      Matrix.mul_nonsing_inv M hinv, Matrix.one_mul]
  rw [hAB, Matrix.sub_mulVec, Matrix.one_mulVec, hMx]
  abel

/-- Witness for C1 at `A = [[1/2, 1/2], [1/2, 1/2]]`, `s` arbitrary concrete:
the influence matrix `I - (A - B)` has determinant `3/4`, a unit. -/
theorem expectedEquilibrium_spec_witness :
    IsUnit (1 - (Matrix.of ![![(1 : ℚ)/2, 1/2], ![1/2, 1/2]] -
        Matrix.diagonal fun i => Matrix.of ![![(1 : ℚ)/2, 1/2], ![1/2, 1/2]] i i)).det ∧
      expectedEquilibrium (Matrix.of ![![(1 : ℚ)/2, 1/2], ![1/2, 1/2]]) ![1, 3] =
        (Matrix.diagonal fun i => Matrix.of ![![(1 : ℚ)/2, 1/2], ![1/2, 1/2]] i i).mulVec
            ![1, 3] +
          (Matrix.of ![![(1 : ℚ)/2, 1/2], ![1/2, 1/2]] -
              Matrix.diagonal fun i => Matrix.of ![![(1 : ℚ)/2, 1/2], ![1/2, 1/2]] i i).mulVec
            (expectedEquilibrium (Matrix.of ![![(1 : ℚ)/2, 1/2], ![1/2, 1/2]]) ![1, 3]) := by
  have h : IsUnit (1 - (Matrix.of ![![(1 : ℚ)/2, 1/2], ![1/2, 1/2]] -
      Matrix.diagonal fun i => Matrix.of ![![(1 : ℚ)/2, 1/2], ![1/2, 1/2]] i i)).det := by
    rw [isUnit_iff_ne_zero, Matrix.det_fin_two]
    norm_num [Matrix.diagonal_apply, Matrix.one_apply]
  exact ⟨h, (expectedEquilibrium_spec _ _ h).2⟩

/-- C4 counterexample: `A = [[2]]` is fully stubborn (all off-diagonal entries
vanish, vacuously for N = 1), yet the solver returns `B·s = [10] ≠ [5] = s`:
full stubbornness alone does not give `x = s` unless the diagonal is 1. -/
theorem expectedEquilibrium_stubborn_counterexample :
    (∀ i j : Fin 1, i ≠ j → Matrix.of ![![(2 : ℚ)]] i j = 0) ∧
      expectedEquilibrium (Matrix.of ![![(2 : ℚ)]]) ![5] = ![10] ∧
      expectedEquilibrium (Matrix.of ![![(2 : ℚ)]]) ![5] ≠ ![5] := by
  have hB : Matrix.diagonal (fun i => Matrix.of ![![(2 : ℚ)]] i i) =
      Matrix.of ![![(2 : ℚ)]] := by
    ext i j
    fin_cases i; fin_cases j
    simp [Matrix.diagonal_apply]
  have hval : expectedEquilibrium (Matrix.of ![![(2 : ℚ)]]) ![5] = ![10] := by
    rw [expectedEquilibrium]
    simp only [hB, sub_self, sub_zero]
    rw [matInv_eq_inv, inv_one, Matrix.one_mul]
    funext i
    fin_cases i
    simp [Matrix.mulVec, Matrix.dotProduct, Fin.sum_univ_one]
    norm_num
  refine ⟨by decide, hval, ?_⟩
  rw [hval]
  intro hcon
  have := congrFun hcon 0
  norm_num at this

/-- C4 (amended): on a fully stubborn network whose stubbornness weights are
all 1 — off-diagonal entries zero and diagonal entries 1, i.e. `A = I` — the
solver returns `x = s` exactly. -/
theorem expectedEquilibrium_stubborn {n : ℕ} (A : Matrix (Fin n) (Fin n) ℚ)
    (s : Fin n → ℚ) (hoff : ∀ i j, i ≠ j → A i j = 0) (hdiag : ∀ i, A i i = 1) :
    expectedEquilibrium A s = s := by
  have hA : A = 1 := by
    ext i j
    by_cases h : i = j
    · subst h; rw [hdiag, Matrix.one_apply_eq]
    · rw [hoff i j h, Matrix.one_apply_ne h]
  subst hA
  have hB : Matrix.diagonal (fun i => (1 : Matrix (Fin n) (Fin n) ℚ) i i) =
      (1 : Matrix (Fin n) (Fin n) ℚ) := by
    ext i j
    by_cases h : i = j
    · subst h; simp [Matrix.diagonal_apply]
    · simp [Matrix.diagonal_apply, h, Matrix.one_apply_ne h]
  rw [expectedEquilibrium]
  simp only [hB, sub_self, sub_zero]
  rw [matInv_eq_inv, inv_one, Matrix.one_mul, Matrix.one_mulVec]

/-- Witness for the amended C4: the spec's own degenerate example
`N = 1, A = [[1]], s = [5]` returns `[5]`. -/
theorem expectedEquilibrium_stubborn_witness :
    (∀ i j : Fin 1, i ≠ j → Matrix.of ![![(1 : ℚ)]] i j = 0) ∧
      (∀ i : Fin 1, Matrix.of ![![(1 : ℚ)]] i i = 1) ∧
      expectedEquilibrium (Matrix.of ![![(1 : ℚ)]]) ![5] = ![5] := by
  refine ⟨by decide, by decide, ?_⟩
  exact expectedEquilibrium_stubborn _ _ (by decide) (by decide)

/-- Symmetric assignment `A[a,b] = w; A[b,a] = w` used by the graph
builders. -/
def setSym {N : ℕ} (A : Matrix (Fin N) (Fin N) ℚ) (a b : Fin N) (w : ℚ) :
    Matrix (Fin N) (Fin N) ℚ :=
  Matrix.of fun x y => if (x = a ∧ y = b) ∨ (x = b ∧ y = a) then w else A x y

lemma setSym_apply {N : ℕ} (A : Matrix (Fin N) (Fin N) ℚ) (a b : Fin N) (w : ℚ)
    (x y : Fin N) :
    setSym A a b w x y =
      if (x = a ∧ y = b) ∨ (x = b ∧ y = a) then w else A x y := rfl

/-- One iteration of `randomSpanningTree`'s loop body for loop index `i`
(the guard is vacuous on the actual index range `1 ≤ i < N`):
`w = rand.random() if rand_weights else 1; A[nodes[i-1], nodes[i]] = w;
A[nodes[i], nodes[i-1]] = w`. -/
def treeStep {N : ℕ} (nodes : Equiv.Perm (Fin N)) (draws : ℕ → ℚ)
    (rand_weights : Bool) (A : Matrix (Fin N) (Fin N) ℚ) (i : ℕ) :
    Matrix (Fin N) (Fin N) ℚ :=
  if h : 1 ≤ i ∧ i < N then
    setSym A (nodes ⟨i - 1, by omega⟩) (nodes ⟨i, h.2⟩)
      (if rand_weights then draws i else 1)
  else A

/-- Embedding of `randomSpanningTree(N, rand_weights)`: the permutation drawn
by `rand.permutation(N)` and the stream of `rand.random()` weight draws are
explicit inputs; the loop `for i in range(1, N)` connects consecutive nodes of
the permutation starting from the zero matrix. -/
def randomSpanningTree (N : ℕ) (nodes : Equiv.Perm (Fin N)) (draws : ℕ → ℚ)
    (rand_weights : Bool) : Matrix (Fin N) (Fin N) ℚ :=
  (List.range' 1 (N - 1)).foldl (treeStep nodes draws rand_weights) 0

/-- Loop iteration `i` of `randomSpanningTree` writes cell `(a, b)`. -/
def writesTo {N : ℕ} (nodes : Equiv.Perm (Fin N)) (i : ℕ) (a b : Fin N) : Prop :=
  ∃ h : 1 ≤ i ∧ i < N,
    (a = nodes ⟨i - 1, by omega⟩ ∧ b = nodes ⟨i, h.2⟩) ∨
      (a = nodes ⟨i, h.2⟩ ∧ b = nodes ⟨i - 1, by omega⟩)

lemma writesTo_symm {N : ℕ} (nodes : Equiv.Perm (Fin N)) (i : ℕ) (a b : Fin N)
    (h : writesTo nodes i a b) : writesTo nodes i b a := by
  obtain ⟨hi, ⟨ha, hb⟩ | ⟨ha, hb⟩⟩ := h
  · exact ⟨hi, Or.inr ⟨hb, ha⟩⟩
  · exact ⟨hi, Or.inl ⟨hb, ha⟩⟩

lemma writesTo_unique {N : ℕ} (nodes : Equiv.Perm (Fin N)) (i j : ℕ) (a b : Fin N)
    (hi : writesTo nodes i a b) (hj : writesTo nodes j a b) : i = j := by
  obtain ⟨⟨hi1, hi2⟩, hci⟩ := hi
  obtain ⟨⟨hj1, hj2⟩, hcj⟩ := hj
  have inj := nodes.injective
  rcases hci with ⟨ha, hb⟩ | ⟨ha, hb⟩ <;> rcases hcj with ⟨ha', hb'⟩ | ⟨ha', hb'⟩
  · have e1 : i - 1 = j - 1 := congrArg Fin.val (inj (ha.symm.trans ha'))
    omega
  · have e1 : i - 1 = j := congrArg Fin.val (inj (ha.symm.trans ha'))
    have e2 : i = j - 1 := congrArg Fin.val (inj (hb.symm.trans hb'))
    omega
  · have e1 : i = j - 1 := congrArg Fin.val (inj (ha.symm.trans ha'))
    have e2 : i - 1 = j := congrArg Fin.val (inj (hb.symm.trans hb'))
    omega
  · exact congrArg Fin.val (inj (ha.symm.trans ha'))

lemma treeStep_not_writes {N : ℕ} (nodes : Equiv.Perm (Fin N)) (draws : ℕ → ℚ)
    (rand_weights : Bool) (A : Matrix (Fin N) (Fin N) ℚ) (i : ℕ) (a b : Fin N)
    (h : ¬ writesTo nodes i a b) :
    treeStep nodes draws rand_weights A i a b = A a b := by
  rw [treeStep]
  by_cases hi : 1 ≤ i ∧ i < N
  · rw [dif_pos hi, setSym_apply, if_neg (fun hc => h ⟨hi, hc⟩)]
  · rw [dif_neg hi]

lemma treeStep_writes {N : ℕ} (nodes : Equiv.Perm (Fin N)) (draws : ℕ → ℚ)
    (rand_weights : Bool) (A : Matrix (Fin N) (Fin N) ℚ) (i : ℕ) (a b : Fin N)
    (h : writesTo nodes i a b) :
    treeStep nodes draws rand_weights A i a b =
      (if rand_weights then draws i else 1) := by
  obtain ⟨hi, hc⟩ := h
  rw [treeStep, dif_pos hi, setSym_apply, if_pos hc]

lemma foldl_treeStep_no_write {N : ℕ} (nodes : Equiv.Perm (Fin N)) (draws : ℕ → ℚ)
    (rand_weights : Bool) (a b : Fin N) :
    ∀ (l : List ℕ) (A : Matrix (Fin N) (Fin N) ℚ),
      (∀ i ∈ l, ¬ writesTo nodes i a b) →
      (l.foldl (treeStep nodes draws rand_weights) A) a b = A a b := by
  intro l
  induction l with
  | nil => intro A _; rfl
  | cons j rest ih =>
    intro A h
    rw [List.foldl_cons, ih _ (fun i hi => h i (List.mem_cons_of_mem j hi)),
      treeStep_not_writes _ _ _ _ _ _ _ (h j (List.mem_cons_self j rest))]

lemma foldl_treeStep_writes {N : ℕ} (nodes : Equiv.Perm (Fin N)) (draws : ℕ → ℚ)
    (rand_weights : Bool) (a b : Fin N) (i0 : ℕ) :
    ∀ (l : List ℕ) (A : Matrix (Fin N) (Fin N) ℚ),
      i0 ∈ l → writesTo nodes i0 a b →
      (l.foldl (treeStep nodes draws rand_weights) A) a b =
        (if rand_weights then draws i0 else 1) := by
  intro l
  induction l with
  | nil => intro A h; exact absurd h (List.not_mem_nil i0)
  | cons j rest ih =>
    intro A hmem hw
    rw [List.foldl_cons]
    by_cases hr : i0 ∈ rest
    · exact ih _ hr hw
    · have hj : i0 = j := by
        rcases List.mem_cons.mp hmem with h | h
        · exact h
        · exact absurd h hr
      subst hj
      rw [foldl_treeStep_no_write nodes draws rand_weights a b rest _
          (fun i hi hwi => hr ((writesTo_unique nodes i i0 a b hwi hw) ▸ hi)),
        treeStep_writes _ _ _ _ _ _ _ hw]

lemma randomSpanningTree_eq_of_writes {N : ℕ} (nodes : Equiv.Perm (Fin N))
    (draws : ℕ → ℚ) (rand_weights : Bool) (a b : Fin N) (i : ℕ)
    (h : writesTo nodes i a b) :
    randomSpanningTree N nodes draws rand_weights a b =
      (if rand_weights then draws i else 1) := by
  obtain ⟨⟨hi1, hi2⟩, hc⟩ := h
  exact foldl_treeStep_writes nodes draws rand_weights a b i _ _
    (List.mem_range'_1.mpr ⟨hi1, by omega⟩) ⟨⟨hi1, hi2⟩, hc⟩

lemma randomSpanningTree_eq_zero {N : ℕ} (nodes : Equiv.Perm (Fin N))
    (draws : ℕ → ℚ) (rand_weights : Bool) (a b : Fin N)
    (h : ∀ i, ¬ writesTo nodes i a b) :
    randomSpanningTree N nodes draws rand_weights a b = 0 := by
  rw [randomSpanningTree,
    foldl_treeStep_no_write nodes draws rand_weights a b _ _ (fun i _ => h i)]
  rfl

lemma randomSpanningTree_ne_zero_iff {N : ℕ} (nodes : Equiv.Perm (Fin N))
    (draws : ℕ → ℚ) (rand_weights : Bool) (a b : Fin N)
    (hw : rand_weights = true → ∀ i, draws i ≠ 0) :
    randomSpanningTree N nodes draws rand_weights a b ≠ 0 ↔
      ∃ i, writesTo nodes i a b := by
  constructor
  · intro hne
    by_contra hc
    push_neg at hc
    exact hne (randomSpanningTree_eq_zero nodes draws rand_weights a b hc)
  · rintro ⟨i, hi⟩
    rw [randomSpanningTree_eq_of_writes nodes draws rand_weights a b i hi]
    cases hr : rand_weights with
    | true => simpa using hw hr i
    | false => simp

lemma randomSpanningTree_symm {N : ℕ} (nodes : Equiv.Perm (Fin N))
    (draws : ℕ → ℚ) (rand_weights : Bool) (a b : Fin N) :
    randomSpanningTree N nodes draws rand_weights a b =
      randomSpanningTree N nodes draws rand_weights b a := by
  by_cases h : ∃ i, writesTo nodes i a b
  · obtain ⟨i, hi⟩ := h
    rw [randomSpanningTree_eq_of_writes nodes draws rand_weights a b i hi,
      randomSpanningTree_eq_of_writes nodes draws rand_weights b a i
        (writesTo_symm nodes i a b hi)]
  · push_neg at h
    rw [randomSpanningTree_eq_zero nodes draws rand_weights a b h,
      randomSpanningTree_eq_zero nodes draws rand_weights b a
        (fun i hw => h i (writesTo_symm nodes i b a hw))]

/-- Connectivity of a weighted adjacency matrix: every node reaches every
other through edges of nonzero weight. -/
def Connected {N : ℕ} (A : Matrix (Fin N) (Fin N) ℚ) : Prop :=
  ∀ a b : Fin N, Relation.ReflTransGen (fun x y => A x y ≠ 0) a b

lemma randomSpanningTree_chain {N : ℕ} (nodes : Equiv.Perm (Fin N))
    (draws : ℕ → ℚ) (rand_weights : Bool)
    (hw : rand_weights = true → ∀ i, draws i ≠ 0) (h0 : 0 < N) :
    ∀ (j : ℕ) (hj : j < N),
      Relation.ReflTransGen
        (fun x y => randomSpanningTree N nodes draws rand_weights x y ≠ 0)
        (nodes ⟨0, h0⟩) (nodes ⟨j, hj⟩) := by
  intro j
  induction j with
  | zero => intro hj; exact Relation.ReflTransGen.refl
  | succ j ih =>
    intro hj
    have hj' : j < N := by omega
    refine Relation.ReflTransGen.tail (ih hj') ?_
    rw [randomSpanningTree_ne_zero_iff nodes draws rand_weights _ _ hw]
    exact ⟨j + 1, ⟨by omega, hj⟩, Or.inl ⟨rfl, rfl⟩⟩

lemma randomSpanningTree_connected {N : ℕ} (nodes : Equiv.Perm (Fin N))
    (draws : ℕ → ℚ) (rand_weights : Bool)
    (hw : rand_weights = true → ∀ i, draws i ≠ 0) (hN : 0 < N) :
    Connected (randomSpanningTree N nodes draws rand_weights) := by
  intro a b
  have hsym : Symmetric
      (fun x y => randomSpanningTree N nodes draws rand_weights x y ≠ 0) := by
    intro x y hxy
    rw [randomSpanningTree_symm nodes draws rand_weights y x]
    exact hxy
  have ha := randomSpanningTree_chain nodes draws rand_weights hw hN
    (nodes.symm a) (nodes.symm a).isLt
  have hb := randomSpanningTree_chain nodes draws rand_weights hw hN
    (nodes.symm b) (nodes.symm b).isLt
  rw [Fin.eta, Equiv.apply_symm_apply] at ha hb
  exact Relation.ReflTransGen.trans
    (Relation.ReflTransGen.symmetric hsym ha) hb

/-- Number of nonzero-weight undirected edges of a weighted adjacency matrix:
unordered pairs counted once via the ordered representatives `a < b`. -/
def edgeCount {N : ℕ} (A : Matrix (Fin N) (Fin N) ℚ) : ℕ :=
  (Finset.univ.filter fun p : Fin N × Fin N => p.1 < p.2 ∧ A p.1 p.2 ≠ 0).card

/-- Total version of `k ↦ nodes ⟨k⟩` used to enumerate tree edges. -/
def permAt {N : ℕ} (nodes : Equiv.Perm (Fin N)) (hN : 0 < N) (m : ℕ) : Fin N :=
  nodes ⟨m % N, Nat.mod_lt m hN⟩

lemma permAt_eq {N : ℕ} (nodes : Equiv.Perm (Fin N)) (hN : 0 < N) (m : ℕ)
    (h : m < N) : permAt nodes hN m = nodes ⟨m, h⟩ := by
  simp [permAt, Nat.mod_eq_of_lt h]

/-- The `k`-th tree edge as an ordered pair (smaller endpoint first). -/
def treePair {N : ℕ} (nodes : Equiv.Perm (Fin N)) (hN : 0 < N) (k : ℕ) :
    Fin N × Fin N :=
  if permAt nodes hN k < permAt nodes hN (k + 1) then
    (permAt nodes hN k, permAt nodes hN (k + 1))
  else (permAt nodes hN (k + 1), permAt nodes hN k)

lemma treePair_writes {N : ℕ} (nodes : Equiv.Perm (Fin N)) (hN : 0 < N) (k : ℕ)
    (hk : k + 1 < N) :
    writesTo nodes (k + 1) (treePair nodes hN k).1 (treePair nodes hN k).2 := by
  have h1 : permAt nodes hN k = nodes ⟨k, by omega⟩ := permAt_eq nodes hN k (by omega)
  have h2 : permAt nodes hN (k + 1) = nodes ⟨k + 1, hk⟩ := permAt_eq nodes hN (k + 1) hk
  rw [treePair]
  split_ifs with hlt
  · exact ⟨⟨by omega, hk⟩, Or.inl ⟨h1, h2⟩⟩
  · exact ⟨⟨by omega, hk⟩, Or.inr ⟨h2, h1⟩⟩

lemma treePair_lt {N : ℕ} (nodes : Equiv.Perm (Fin N)) (hN : 0 < N) (k : ℕ)
    (hk : k + 1 < N) : (treePair nodes hN k).1 < (treePair nodes hN k).2 := by
  have hne : permAt nodes hN k ≠ permAt nodes hN (k + 1) := by
    rw [permAt_eq nodes hN k (by omega), permAt_eq nodes hN (k + 1) hk]
    intro hcon
    have hval : k = k + 1 := congrArg Fin.val (nodes.injective hcon)
    omega
  rw [treePair]
  split_ifs with hlt
  · exact hlt
  · exact lt_of_le_of_ne (not_lt.mp hlt) (Ne.symm hne)

lemma randomSpanningTree_edgeCount {N : ℕ} (nodes : Equiv.Perm (Fin N))
    (draws : ℕ → ℚ) (rand_weights : Bool)
    (hw : rand_weights = true → ∀ i, draws i ≠ 0) (hN : 0 < N) :
    edgeCount (randomSpanningTree N nodes draws rand_weights) = N - 1 := by
  have himg :
      Finset.univ.filter (fun p : Fin N × Fin N =>
          p.1 < p.2 ∧ randomSpanningTree N nodes draws rand_weights p.1 p.2 ≠ 0) =
        Finset.image (treePair nodes hN) (Finset.range (N - 1)) := by
    ext p
    simp only [Finset.mem_filter, Finset.mem_univ, true_and, Finset.mem_image,
      Finset.mem_range]
    constructor
    · rintro ⟨hlt, hne⟩
      obtain ⟨i, hwi⟩ :=
        (randomSpanningTree_ne_zero_iff nodes draws rand_weights p.1 p.2 hw).mp hne
      obtain ⟨⟨hi1, hi2⟩, hc⟩ := hwi
      refine ⟨i - 1, by omega, ?_⟩
      have hk1 : i - 1 + 1 = i := by omega
      have h1 : permAt nodes hN (i - 1) = nodes ⟨i - 1, by omega⟩ :=
        permAt_eq nodes hN (i - 1) (by omega)
      have h2 : permAt nodes hN (i - 1 + 1) = nodes ⟨i, hi2⟩ := by
        rw [hk1]; exact permAt_eq nodes hN i hi2
      rcases hc with ⟨ha, hb⟩ | ⟨ha, hb⟩
      · rw [treePair, h1, h2, ← ha, ← hb, if_pos hlt]
      · rw [treePair, h1, h2, ← ha, ← hb, if_neg (not_lt.mpr hlt.le)]
    · rintro ⟨k, hk, hp⟩
      have hk1 : k + 1 < N := by omega
      constructor
      · rw [← hp]; exact treePair_lt nodes hN k hk1
      · rw [← hp,
          randomSpanningTree_ne_zero_iff nodes draws rand_weights _ _ hw]
        exact ⟨k + 1, treePair_writes nodes hN k hk1⟩
  rw [edgeCount, himg, Finset.card_image_of_injOn, Finset.card_range]
  intro k hk k' hk' heq
  have hk1 : k + 1 < N := by simp only [Finset.mem_coe, Finset.mem_range] at hk; omega
  have hk1' : k' + 1 < N := by simp only [Finset.mem_coe, Finset.mem_range] at hk'; omega
  have h1 := treePair_writes nodes hN k hk1
  have h2 := treePair_writes nodes hN k' hk1'
  rw [heq] at h1
  have := writesTo_unique nodes (k + 1) (k' + 1) _ _ h1 h2
  omega

/-- C2: for every `N ≥ 2`, every permutation of the node labels and every
sequence of weight draws (weight 1 in binary mode; the drawn weights, assumed
nonzero as the spec draws them from the open interval `(0,1)`, in weighted
mode), the spanning-tree builder returns a symmetric matrix that is connected
over all `N` nodes and has exactly `N - 1` nonzero-weight undirected edges. -/
theorem randomSpanningTree_spec {N : ℕ} (nodes : Equiv.Perm (Fin N))
    (draws : ℕ → ℚ) (rand_weights : Bool) (hN : 2 ≤ N)
    (hw : rand_weights = true → ∀ i, draws i ≠ 0) :
    (∀ a b, randomSpanningTree N nodes draws rand_weights a b =
        randomSpanningTree N nodes draws rand_weights b a) ∧
      Connected (randomSpanningTree N nodes draws rand_weights) ∧
      edgeCount (randomSpanningTree N nodes draws rand_weights) = N - 1 :=
  ⟨fun a b => randomSpanningTree_symm nodes draws rand_weights a b,
    randomSpanningTree_connected nodes draws rand_weights hw (by omega),
    randomSpanningTree_edgeCount nodes draws rand_weights hw (by omega)⟩

/-- Witness for C2 at `N = 2`, the identity permutation, constant draw `1/2`,
weighted mode. -/
theorem randomSpanningTree_spec_witness :
    ((2 : ℕ) ≤ 2 ∧ ∀ _i : ℕ, (1/2 : ℚ) ≠ 0) ∧
      edgeCount (randomSpanningTree 2 (Equiv.refl (Fin 2)) (fun _ => 1/2) true) =
        2 - 1 :=
  ⟨⟨by norm_num, fun _ => by norm_num⟩,
    (randomSpanningTree_spec (Equiv.refl (Fin 2)) (fun _ => 1/2) true
      (by norm_num) (fun _ _ => by norm_num)).2.2⟩

/-- The ordered pairs `(i, j)` visited by `gnp`'s double loop
`for i in range(N): for j in range(N):` in row-major order. -/
def pairList (N : ℕ) : List (Fin N × Fin N) :=
  (List.finRange N).flatMap fun i => (List.finRange N).map fun j => (i, j)

/-- One iteration of `gnp`'s loop body on the pair `(i, j)`:
`r = rand.random(); if r < p: w = rand.random() if rand_weights else 1;
A[i,j] = w; A[j,i] = w`.  The per-pair uniform draws `r` and `w` are the
explicit oracles `rdraw` and `wdraw`. -/
def gnpStep {N : ℕ} (p : ℚ) (rdraw wdraw : Fin N → Fin N → ℚ)
    (rand_weights : Bool) (A : Matrix (Fin N) (Fin N) ℚ) (pr : Fin N × Fin N) :
    Matrix (Fin N) (Fin N) ℚ :=
  if rdraw pr.1 pr.2 < p then
    setSym A pr.1 pr.2 (if rand_weights then wdraw pr.1 pr.2 else 1)
  else A

/-- Embedding of `gnp(N, p, rand_weights)`: start from a binary random
spanning tree, then resample every ordered pair (including the diagonal), and
row-normalize in weighted mode.  All random draws are explicit inputs. -/
def gnp (N : ℕ) (p : ℚ) (nodes : Equiv.Perm (Fin N)) (tdraws : ℕ → ℚ)
    (rdraw wdraw : Fin N → Fin N → ℚ) (rand_weights : Bool) :
    Matrix (Fin N) (Fin N) ℚ :=
  let A := randomSpanningTree N nodes tdraws false
  let A2 := (pairList N).foldl (gnpStep p rdraw wdraw rand_weights) A
  if rand_weights then rowStochastic A2 else A2

lemma gnpStep_diag {N : ℕ} (p : ℚ) (rdraw wdraw : Fin N → Fin N → ℚ)
    (rand_weights : Bool) (A : Matrix (Fin N) (Fin N) ℚ) (pr : Fin N × Fin N)
    (i : Fin N) :
    gnpStep p rdraw wdraw rand_weights A pr i i =
      if pr = (i, i) ∧ rdraw i i < p then
        (if rand_weights then wdraw i i else 1) else A i i := by
  rw [gnpStep]
  by_cases hpr : pr = (i, i)
  · subst hpr
    by_cases hr : rdraw i i < p
    · simp [hr, setSym_apply]
    · simp [hr]
  · have hne : ¬ ((i = pr.1 ∧ i = pr.2) ∨ (i = pr.2 ∧ i = pr.1)) := by
      rintro (⟨h1, h2⟩ | ⟨h1, h2⟩)
      · exact hpr (Prod.ext_iff.mpr ⟨h1.symm, h2.symm⟩)
      · exact hpr (Prod.ext_iff.mpr ⟨h2.symm, h1.symm⟩)
    by_cases hr : rdraw pr.1 pr.2 < p
    · rw [if_pos hr, setSym_apply, if_neg hne, if_neg (fun hc => hpr hc.1)]
    · rw [if_neg hr, if_neg (fun hc => hpr hc.1)]

lemma foldl_gnpStep_diag {N : ℕ} (p : ℚ) (rdraw wdraw : Fin N → Fin N → ℚ)
    (rand_weights : Bool) (i : Fin N) :
    ∀ (l : List (Fin N × Fin N)) (A : Matrix (Fin N) (Fin N) ℚ),
      (l.foldl (gnpStep p rdraw wdraw rand_weights) A) i i =
        if (i, i) ∈ l ∧ rdraw i i < p then
          (if rand_weights then wdraw i i else 1) else A i i := by
  intro l
  induction l with
  | nil => intro A; simp
  | cons pr rest ih =>
    intro A
    rw [List.foldl_cons, ih, gnpStep_diag]
    by_cases hrest : (i, i) ∈ rest ∧ rdraw i i < p
    · have hcons : (i, i) ∈ pr :: rest ∧ rdraw i i < p :=
        ⟨List.mem_cons_of_mem pr hrest.1, hrest.2⟩
      rw [if_pos hrest, if_pos hcons]
    · rw [if_neg hrest]
      by_cases hpr : pr = (i, i) ∧ rdraw i i < p
      · have hcons : (i, i) ∈ pr :: rest ∧ rdraw i i < p :=
          ⟨hpr.1 ▸ List.mem_cons_self pr rest, hpr.2⟩
        rw [if_pos hpr, if_pos hcons]
      · rw [if_neg hpr, if_neg]
        rintro ⟨hmem, hr⟩
        rcases List.mem_cons.mp hmem with h | h
        · exact hpr ⟨h.symm, hr⟩
        · exact hrest ⟨h, hr⟩

lemma randomSpanningTree_diag {N : ℕ} (nodes : Equiv.Perm (Fin N))
    (draws : ℕ → ℚ) (rand_weights : Bool) (i : Fin N) :
    randomSpanningTree N nodes draws rand_weights i i = 0 := by
  apply randomSpanningTree_eq_zero
  rintro k ⟨⟨hk1, hk2⟩, ⟨ha, hb⟩ | ⟨ha, hb⟩⟩ <;>
  · have hmk := nodes.injective (ha.symm.trans hb)
    rw [Fin.mk.injEq] at hmk
    omega

lemma mem_pairList {N : ℕ} (i j : Fin N) : (i, j) ∈ pairList N := by
  rw [pairList, List.mem_flatMap]
  exact ⟨i, List.mem_finRange i, List.mem_map.mpr ⟨j, List.mem_finRange j, rfl⟩⟩

/-- C3 (amended): the self-pair `i = j` is NOT skipped by `gnp`'s edge
sampling.  In binary mode the diagonal entry equals 1 exactly when the uniform
draw for the pair `(i, i)` falls below `p` (and 0 otherwise), so the diagonal
is in general nonzero. -/
theorem gnp_diag {N : ℕ} (p : ℚ) (nodes : Equiv.Perm (Fin N)) (tdraws : ℕ → ℚ)
    (rdraw wdraw : Fin N → Fin N → ℚ) (i : Fin N) :
    gnp N p nodes tdraws rdraw wdraw false i i =
      if rdraw i i < p then 1 else 0 := by
  rw [gnp]
  simp only [Bool.false_eq_true, if_false]
  rw [foldl_gnpStep_diag, randomSpanningTree_diag]
  simp [mem_pairList i i]

/-- C3 counterexample: at `N = 1`, `p = 1`, with all uniform draws equal to
`0`, binary mode, the generator sets the diagonal entry `A[0,0]` to `1`: the
returned matrix does not have a zero diagonal. -/
theorem gnp_diag_counterexample :
    gnp 1 1 (Equiv.refl (Fin 1)) (fun _ => 0) (fun _ _ => 0) (fun _ _ => 0)
        false 0 0 = 1 ∧
      gnp 1 1 (Equiv.refl (Fin 1)) (fun _ => 0) (fun _ _ => 0) (fun _ _ => 0)
        false 0 0 ≠ 0 := by
  have h : gnp 1 1 (Equiv.refl (Fin 1)) (fun _ => 0) (fun _ _ => 0)
      (fun _ _ => 0) false 0 0 = 1 := by
    rw [gnp]
    simp only [Bool.false_eq_true, if_false]
    rw [foldl_gnpStep_diag, randomSpanningTree_diag]
    have hm : (0 : Fin 1 × Fin 1) ∈ pairList 1 := mem_pairList 0 0
    norm_num [hm]
  exact ⟨h, by rw [h]; norm_num⟩

/-- Embedding of `meanDegree(A)`: `B` is a copy of `A` with every entry
`> 0` overwritten by 1 (other entries kept as they are), `degrees` the row
sums of `B`, result `np.mean(degrees)` — i.e. the total of `B` divided by
the number of rows. -/
def meanDegree {N : ℕ} (A : Matrix (Fin N) (Fin N) ℚ) : ℚ :=
  (∑ i, ∑ j, (if 0 < A i j then 1 else A i j)) / N

lemma binarize_eq_self {N : ℕ} (A : Matrix (Fin N) (Fin N) ℚ)
    (h01 : ∀ i j, A i j = 0 ∨ A i j = 1) (i j : Fin N) :
    (if 0 < A i j then (1 : ℚ) else A i j) = A i j := by
  rcases h01 i j with h | h <;> rw [h] <;> norm_num

lemma rowSum_eq_card {N : ℕ} (A : Matrix (Fin N) (Fin N) ℚ)
    (h01 : ∀ i j, A i j = 0 ∨ A i j = 1) (i : Fin N) :
    ∑ j, A i j = ((Finset.univ.filter fun j => 0 < A i j).card : ℚ) := by
  rw [← Finset.sum_boole]
  apply Finset.sum_congr rfl
  intro j _
  rcases h01 i j with h | h <;> rw [h] <;> norm_num

lemma total_eq_twice_edgeCount {N : ℕ} (A : Matrix (Fin N) (Fin N) ℚ)
    (h01 : ∀ i j, A i j = 0 ∨ A i j = 1) (hsym : ∀ i j, A i j = A j i)
    (hdiag : ∀ i, A i i = 0) :
    ∑ i, ∑ j, A i j = 2 * (edgeCount A : ℚ) := by
  have hsplit : ∀ i j : Fin N, A i j =
      (if i < j then A i j else 0) + (if j < i then A i j else 0) := by
    intro i j
    rcases lt_trichotomy i j with h | h | h
    · rw [if_pos h, if_neg (asymm h), add_zero]
    · subst h
      rw [if_neg (lt_irrefl i), hdiag]
      norm_num
    · rw [if_neg (asymm h), if_pos h, zero_add]
  have hswap : ∑ i, ∑ j, (if j < i then A i j else 0) =
      ∑ i, ∑ j, (if i < j then A i j else 0) := by
    rw [Finset.sum_comm]
    apply Finset.sum_congr rfl
    intro j _
    apply Finset.sum_congr rfl
    intro i _
    by_cases h : j < i
    · rw [if_pos h, if_pos h, hsym]
    · rw [if_neg h, if_neg h]
  have hupper : ∑ i, ∑ j, (if i < j then A i j else 0) = (edgeCount A : ℚ) := by
    rw [edgeCount, ← Finset.univ_product_univ, ← Finset.sum_product']
    have hind : ∀ p : Fin N × Fin N,
        (if p.1 < p.2 then A p.1 p.2 else 0) =
          (if p.1 < p.2 ∧ A p.1 p.2 ≠ 0 then (1 : ℚ) else 0) := by
      intro p
      rcases h01 p.1 p.2 with h | h
      · rw [h]; simp
      · rw [h]
        by_cases hlt : p.1 < p.2
        · simp [hlt]
        · simp [hlt]
    calc ∑ p ∈ Finset.univ ×ˢ Finset.univ,
          (if p.1 < p.2 then A p.1 p.2 else 0)
        = ∑ p ∈ Finset.univ ×ˢ Finset.univ,
            (if p.1 < p.2 ∧ A p.1 p.2 ≠ 0 then (1 : ℚ) else 0) :=
          Finset.sum_congr rfl fun p _ => hind p
      _ = _ := by rw [Finset.sum_boole]
  calc ∑ i, ∑ j, A i j
      = ∑ i, ∑ j, ((if i < j then A i j else 0) + (if j < i then A i j else 0)) := by
        apply Finset.sum_congr rfl
        intro i _
        exact Finset.sum_congr rfl fun j _ => hsplit i j
    _ = (∑ i, ∑ j, (if i < j then A i j else 0)) +
          (∑ i, ∑ j, (if j < i then A i j else 0)) := by
        rw [← Finset.sum_add_distrib]
        exact Finset.sum_congr rfl fun i _ => Finset.sum_add_distrib
    _ = 2 * (edgeCount A : ℚ) := by rw [hswap, hupper, two_mul]

/-- C9: on a 0/1 adjacency matrix of an `N`-node graph (symmetric, zero
diagonal), `meanDegree` equals `2·E / N` where `E` is the number of
undirected edges, and also equals the mean over nodes of the number of
positive-weight neighbors. -/
theorem meanDegree_spec {N : ℕ} (A : Matrix (Fin N) (Fin N) ℚ) (hN : 0 < N)
    (h01 : ∀ i j, A i j = 0 ∨ A i j = 1) (hsym : ∀ i j, A i j = A j i)
    (hdiag : ∀ i, A i i = 0) :
    meanDegree A = 2 * (edgeCount A : ℚ) / N ∧
      meanDegree A =
        (∑ i, ((Finset.univ.filter fun j => 0 < A i j).card : ℚ)) / N := by
  have hM : meanDegree A = (∑ i, ∑ j, A i j) / N := by
    rw [meanDegree]
    congr 1
    apply Finset.sum_congr rfl
    intro i _
    exact Finset.sum_congr rfl fun j _ => binarize_eq_self A h01 i j
  constructor
  · rw [hM, total_eq_twice_edgeCount A h01 hsym hdiag]
  · rw [hM]
    congr 1
    exact Finset.sum_congr rfl fun i _ => rowSum_eq_card A h01 i

/-- Witness for C9 at the 2-node path graph `[[0,1],[1,0]]`. -/
theorem meanDegree_spec_witness :
    ((0 : ℕ) < 2 ∧
        (∀ i j, Matrix.of ![![(0 : ℚ), 1], ![1, 0]] i j = 0 ∨
          Matrix.of ![![(0 : ℚ), 1], ![1, 0]] i j = 1) ∧
        (∀ i j, Matrix.of ![![(0 : ℚ), 1], ![1, 0]] i j =
          Matrix.of ![![(0 : ℚ), 1], ![1, 0]] j i) ∧
        (∀ i, Matrix.of ![![(0 : ℚ), 1], ![1, 0]] i i = 0)) ∧
      meanDegree (Matrix.of ![![(0 : ℚ), 1], ![1, 0]]) =
        2 * (edgeCount (Matrix.of ![![(0 : ℚ), 1], ![1, 0]]) : ℚ) / 2 := by
  have h01 : ∀ i j, Matrix.of ![![(0 : ℚ), 1], ![1, 0]] i j = 0 ∨
      Matrix.of ![![(0 : ℚ), 1], ![1, 0]] i j = 1 := by decide
  have hsym : ∀ i j, Matrix.of ![![(0 : ℚ), 1], ![1, 0]] i j =
      Matrix.of ![![(0 : ℚ), 1], ![1, 0]] j i := by decide
  have hdiag : ∀ i, Matrix.of ![![(0 : ℚ), 1], ![1, 0]] i i = 0 := by decide
  exact ⟨⟨by norm_num, h01, hsym, hdiag⟩,
    (meanDegree_spec _ (by norm_num) h01 hsym hdiag).1⟩
